import Mathlib

/-!
Verification development for the commit-history extraction core of a
changelog generator (`src/git.ts`).

The source code shells out to an external `git` process and manipulates the
captured standard output.  We embed the code shallowly:

* external command outputs are supplied by an oracle `git : GitCmd → String`
  mapping each invoked command to its (already trailing-trimmed) stdout;
* the JavaScript string primitive `s.split("\n")` is embedded as `jsSplitNl`
  (note `"".split("\n") = [""]` in JavaScript — faithfully preserved);
* `Array.prototype.filter(Boolean)` on strings keeps exactly the non-empty
  strings, on nullable records it keeps exactly the non-null ones
  (embedded with `List.filter` / `List.filterMap`);
* the unanchored JavaScript regular expression
  `hash<(.+)> ref<(.*)> message<(.*)> date<(.*)>` is embedded as a
  backtracking matcher `jsMatch` with leftmost scan, greedy groups tried
  longest-first, and `.` matching every character except the JavaScript
  line terminators;
* side-effect order is captured by threading an explicit trace of the
  external commands issued, in program order.
-/

/-- Commands issued to the external `git` process by the code under audit. -/
inductive GitCmd where
  /-- git show -m --name-only --pretty=format: --first-parent sha -/
  | gitShow (sha : String)
  /-- git tag -/
  | tag
  /-- git fetch -/
  | fetch
  /-- git log --oneline --pretty=%s origin/master..origin/branch -/
  | logBranch (branch : String)
  /-- git log --oneline --pretty=hash ref message date --date=short f..t -/
  | logRange (f t : String)
deriving DecidableEq

/-- Record type of `CommitListItem` from `src/git.ts`. -/
structure CommitListItem where
  sha : String
  refName : String
  summary : String
  date : String
deriving DecidableEq

/-- Embedding of the JavaScript `split("\n")` on the character list level.
`splitNlChars [] = [[]]` mirrors `"".split("\n") = [""]`. -/
def splitNlChars : List Char → List (List Char)
  | [] => [[]]
  | c :: cs =>
    if c = '\n' then [] :: splitNlChars cs
    else
      match splitNlChars cs with
      | [] => [[c]]
      | r :: rs => (c :: r) :: rs

/-- Embedding of the JavaScript `s.split("\n")` on `String`. -/
def jsSplitNl (s : String) : List String :=
  (splitNlChars s.data).map (fun l => String.mk l)

/-- Spec-side joiner: the inverse view of line splitting, used to state
round-trip properties ("one path per line"). -/
def joinLinesChars : List (List Char) → List Char
  | [] => []
  | [l] => l
  | l :: ls => l ++ '\n' :: joinLinesChars ls

/-- Spec-side joiner on `String`. -/
def joinLines (ls : List String) : String :=
  String.mk (joinLinesChars (ls.map String.data))

/-- Characters treated as line terminators by an unflagged JavaScript
regular expression dot. -/
def isLineTerm (c : Char) : Bool :=
  c = '\n' || c = '\r' || c = '\u2028' || c = '\u2029'

/-- Match a literal piece of the pattern, then continue on the remainder. -/
def litThen (lit : List Char) (k : List Char → Option α) (s : List Char) : Option α :=
  if lit.isPrefixOf s then k (s.drop lit.length) else none

/-- Try `k n, k (n-1), ..., k 0` and return the first success: the
backtracking order of a greedy `(.*)` group. -/
def tryLens (k : Nat → Option α) : Nat → Option α
  | 0 => k 0
  | n + 1 =>
    match k (n + 1) with
    | some v => some v
    | none => tryLens k n

/-- Try `k n, k (n-1), ..., k 1` and return the first success: the
backtracking order of a greedy `(.+)` group. -/
def tryLensPos (k : Nat → Option α) : Nat → Option α
  | 0 => none
  | n + 1 =>
    match k (n + 1) with
    | some v => some v
    | none => tryLensPos k n

/-- Longest run the regex dot can consume from the front of `s`. -/
def dotMax (s : List Char) : Nat :=
  (s.takeWhile (fun c => !isLineTerm c)).length

/-- Greedy `(.*)` group: pass the captured group and the remainder to `k`,
trying the longest capture first. -/
def dotStar (k : List Char → List Char → Option α) (s : List Char) : Option α :=
  tryLens (fun n => k (s.take n) (s.drop n)) (dotMax s)

/-- Greedy `(.+)` group: like `dotStar` but the capture must be non-empty. -/
def dotPlus (k : List Char → List Char → Option α) (s : List Char) : Option α :=
  tryLensPos (fun n => k (s.take n) (s.drop n)) (dotMax s)

/-- Attempt of the pattern `hash<(.+)> ref<(.*)> message<(.*)> date<(.*)>`
anchored at the start of `s` (trailing text is allowed, the pattern has no
end anchor).  Returns the four captured groups. -/
def matchCore (s : List Char) : Option (List Char × List Char × List Char × List Char) :=
  litThen "hash<".data (fun s1 =>
    dotPlus (fun g1 s2 =>
      litThen "> ref<".data (fun s3 =>
        dotStar (fun g2 s4 =>
          litThen "> message<".data (fun s5 =>
            dotStar (fun g3 s6 =>
              litThen "> date<".data (fun s7 =>
                dotStar (fun g4 s8 =>
                  litThen ">".data (fun _ => some (g1, g2, g3, g4)) s8) s7) s6) s5) s4) s3) s2) s1) s

/-- Embedding of the JavaScript `commit.match(re)`: scan start positions
left to right, at each position run the backtracking attempt. -/
def jsMatch : List Char → Option (List Char × List Char × List Char × List Char)
  | [] => matchCore []
  | c :: cs =>
    match matchCore (c :: cs) with
    | some v => some v
    | none => jsMatch cs

/-- Embedding of `parseLogMessage` from `src/git.ts`: a successful match
yields the record built from the four captured groups, a failed match
yields `none` (the JavaScript code returns `null`). -/
def parseLogMessage (commit : String) : Option CommitListItem :=
  match jsMatch commit.data with
  | some (g1, g2, g3, g4) => some ⟨String.mk g1, String.mk g2, String.mk g3, String.mk g4⟩
  | none => none

/-- Embedding of `.split("\n").filter(Boolean)`: the lines of an output,
with empty strings removed. -/
def nonblankLines (s : String) : List String :=
  (jsSplitNl s).filter (fun l => l != "")

/-- Embedding of `changedPaths` from `src/git.ts`: split the captured
stdout on newlines — note the source applies no `filter` here. -/
def changedPaths (git : GitCmd → String) (sha : String) : List String :=
  jsSplitNl (git (GitCmd.gitShow sha))

/-- Embedding of `listTagNames` from `src/git.ts`. -/
def listTagNames (git : GitCmd → String) : List String :=
  nonblankLines (git GitCmd.tag)

/-- Run one external command: record it on the trace and read its output
from the oracle. -/
def runGit (git : GitCmd → String) (c : GitCmd) (tr : List GitCmd) : String × List GitCmd :=
  (git c, tr ++ [c])

/-- Parsing stage of `listCommits`: split the range output into lines,
drop blank lines, parse each line, and drop the `null` parses. -/
def parseRangeOutput (raw : String) : List CommitListItem :=
  (nonblankLines raw).filterMap parseLogMessage

/-- One step of the `duplicateCheckBranches.forEach` loop of `listCommits`:
run the branch log and append its non-blank summary lines to the
accumulator (the `Array.prototype.push.apply` call). -/
def branchStep (git : GitCmd → String) (p : List String × List GitCmd) (branch : String) :
    List String × List GitCmd :=
  let r := runGit git (GitCmd.logBranch branch) p.2
  (p.1 ++ nonblankLines r.1, r.2)

/-- Embedding of `listCommits` from `src/git.ts`, threading the trace of
external commands in program order: `fetch`, then one branch log per
duplicate-check branch, then the structured range log; the result is the
parsed range filtered by the accumulated summary exclusion list. -/
def listCommitsRun (git : GitCmd → String) (f t : String) (branches : List String)
    (tr : List GitCmd) : List CommitListItem × List GitCmd :=
  let r0 := runGit git GitCmd.fetch tr
  let acc := branches.foldl (branchStep git) ([], r0.2)
  let r1 := runGit git (GitCmd.logRange f t) acc.2
  ((parseRangeOutput r1.1).filter (fun item => !(acc.1.contains item.summary)), r1.2)

/-- Value result of `listCommits`. -/
def listCommits (git : GitCmd → String) (f t : String) (branches : List String) :
    List CommitListItem :=
  (listCommitsRun git f t branches []).1

/-- Trace of external commands issued by one `listCommits` invocation. -/
def listCommitsTrace (git : GitCmd → String) (f t : String) (branches : List String) :
    List GitCmd :=
  (listCommitsRun git f t branches []).2

/-- Spec-side serializer for the structured log format, used to state the
round-trip property: the same literal field markers the format string
`hash<%h> ref<%D> message<%s> date<%cd>` produces. -/
def formatLine (sha refName summary date : String) : String :=
  "hash<" ++ sha ++ "> ref<" ++ refName ++ "> message<" ++ summary ++ "> date<" ++ date ++ ">"

/-! ### Basic properties of the line splitter and joiner -/

theorem splitNlChars_ne_nil (cs : List Char) : splitNlChars cs ≠ [] := by
  induction cs with
  | nil => simp [splitNlChars]
  | cons c cs ih =>
    simp only [splitNlChars]
    split
    · simp
    · cases h : splitNlChars cs <;> simp

theorem splitNlChars_append (l cs : List Char) (hl : '\n' ∉ l) (r : List Char)
    (rs : List (List Char)) (hcs : splitNlChars cs = r :: rs) :
    splitNlChars (l ++ cs) = (l ++ r) :: rs := by
  induction l with
  | nil => simpa using hcs
  | cons c l ih =>
    have hc : c ≠ '\n' := by
      intro h; exact hl (by simp [h])
    have hl' : '\n' ∉ l := fun h => hl (by simp [h])
    simp only [List.cons_append, splitNlChars, if_neg hc, List.append_eq, ih hl']

theorem splitNlChars_joinLinesChars (ls : List (List Char)) (hnl : ∀ l ∈ ls, '\n' ∉ l)
    (hne : ls ≠ []) : splitNlChars (joinLinesChars ls) = ls := by
  induction ls with
  | nil => exact absurd rfl hne
  | cons l ls ih =>
    cases ls with
    | nil =>
      have : splitNlChars (l ++ ([] : List Char)) = (l ++ []) :: [] :=
        splitNlChars_append l [] (hnl l (by simp)) [] [] rfl
      simpa [joinLinesChars] using this
    | cons l2 ls2 =>
      have hrest : splitNlChars (joinLinesChars (l2 :: ls2)) = l2 :: ls2 :=
        ih (fun x hx => hnl x (by simp [hx])) (by simp)
      have hcons : splitNlChars ('\n' :: joinLinesChars (l2 :: ls2)) =
          [] :: l2 :: ls2 := by
        simp [splitNlChars, hrest]
      have := splitNlChars_append l ('\n' :: joinLinesChars (l2 :: ls2))
        (hnl l (by simp)) [] (l2 :: ls2) hcons
      simpa [joinLinesChars] using this

theorem jsSplitNl_joinLines (ls : List String) (hnl : ∀ l ∈ ls, '\n' ∉ l.data)
    (hne : ls ≠ []) : jsSplitNl (joinLines ls) = ls := by
  have hd : ∀ l ∈ ls.map String.data, '\n' ∉ l := by
    intro l hl
    rcases List.mem_map.mp hl with ⟨s, hs, rfl⟩
    exact hnl s hs
  have hne' : ls.map String.data ≠ [] := by
    simpa using hne
  have : splitNlChars (joinLinesChars (ls.map String.data)) = ls.map String.data :=
    splitNlChars_joinLinesChars _ hd hne'
  simp only [jsSplitNl, joinLines, this, List.map_map]
  have hid : (String.mk ∘ String.data) = id := funext fun s => rfl
  rw [hid, List.map_id]

/-! ### Characterization of `listCommits` and its trace -/

theorem branchFold (git : GitCmd → String) (branches : List String) (acc0 : List String)
    (tr0 : List GitCmd) :
    branches.foldl (branchStep git) (acc0, tr0) =
      (acc0 ++ (branches.map (fun b => nonblankLines (git (GitCmd.logBranch b)))).flatten,
       tr0 ++ branches.map GitCmd.logBranch) := by
  induction branches generalizing acc0 tr0 with
  | nil => simp
  | cons b bs ih =>
    simp only [List.foldl_cons, branchStep, runGit, ih, List.map_cons, List.flatten_cons,
      List.append_assoc, List.cons_append, List.nil_append]

/-- Exclusion list accumulated from the duplicate-check branches. -/
def excludedSummaries (git : GitCmd → String) (branches : List String) : List String :=
  (branches.map (fun b => nonblankLines (git (GitCmd.logBranch b)))).flatten

theorem listCommits_eq (git : GitCmd → String) (f t : String) (branches : List String) :
    listCommits git f t branches =
      (parseRangeOutput (git (GitCmd.logRange f t))).filter
        (fun item => !((excludedSummaries git branches).contains item.summary)) := by
  simp [listCommits, listCommitsRun, runGit, branchFold, excludedSummaries]

theorem listCommitsTrace_eq (git : GitCmd → String) (f t : String) (branches : List String) :
    listCommitsTrace git f t branches =
      GitCmd.fetch :: (branches.map GitCmd.logBranch ++ [GitCmd.logRange f t]) := by
  simp [listCommitsTrace, listCommitsRun, runGit, branchFold]

theorem contains_iff (l : List String) (a : String) : l.contains a = true ↔ a ∈ l := by
  simp [List.contains, List.elem_iff]

theorem mem_excludedSummaries (git : GitCmd → String) (branches : List String) (s : String) :
    s ∈ excludedSummaries git branches ↔
      ∃ b ∈ branches, s ∈ nonblankLines (git (GitCmd.logBranch b)) := by
  simp only [excludedSummaries, List.mem_flatten, List.mem_map]
  constructor
  · rintro ⟨l, ⟨b, hb, rfl⟩, hs⟩
    exact ⟨b, hb, hs⟩
  · rintro ⟨b, hb, hs⟩
    exact ⟨_, ⟨b, hb, rfl⟩, hs⟩

theorem parseLogMessage_empty : parseLogMessage "" = none := rfl

theorem filterMap_parse_nonblank (l : List String) :
    (l.filter (fun s => s != "")).filterMap parseLogMessage = l.filterMap parseLogMessage := by
  induction l with
  | nil => rfl
  | cons s l ih =>
    by_cases hs : s = ""
    · subst hs
      simp [parseLogMessage_empty, ih]
    · simp [hs, List.filterMap_cons, ih]

theorem parseRangeOutput_eq (raw : String) :
    parseRangeOutput raw = (jsSplitNl raw).filterMap parseLogMessage := by
  simp [parseRangeOutput, nonblankLines, filterMap_parse_nonblank]

theorem length_filterMap_eq_countP (f : α → Option β) (l : List α) :
    (l.filterMap f).length = l.countP (fun a => (f a).isSome) := by
  induction l with
  | nil => rfl
  | cons a l ih =>
    cases h : f a <;> simp [List.filterMap_cons, h, List.countP_cons, ih]

theorem listCommits_no_branches (git : GitCmd → String) (f t : String) :
    listCommits git f t [] = parseRangeOutput (git (GitCmd.logRange f t)) := by
  simp [listCommits_eq, excludedSummaries]

/-! ### Claims about `listCommits` filtering and emptiness -/

/-- Claim C1: with a non-empty duplicate-check branch list, no record in the
result of `listCommits` has a summary equal to any non-blank one-line
summary produced for any listed branch (the exclusion set built from the
ranges over all branches); the filter compares summary text only. -/
theorem claim_C1_no_excluded_summary (git : GitCmd → String) (f t : String)
    (branches : List String) (_hne : branches ≠ []) :
    ∀ item ∈ listCommits git f t branches, ∀ b ∈ branches,
      item.summary ∉ nonblankLines (git (GitCmd.logBranch b)) := by
  intro item hitem b hb hmem
  rw [listCommits_eq] at hitem
  have hpred := (List.mem_filter.mp hitem).2
  have hcontains : (excludedSummaries git branches).contains item.summary = true :=
    (contains_iff _ _).mpr ((mem_excludedSummaries git branches item.summary).mpr ⟨b, hb, hmem⟩)
  rw [hcontains] at hpred
  simp at hpred

/-- Oracle for the C1 witness: the branch diff contains the summary `dup`,
the primary range contains one commit with summary `dup` and one with
summary `keep`. -/
def gitC1 : GitCmd → String := fun c =>
  match c with
  | GitCmd.logBranch _ => "dup"
  | GitCmd.logRange _ _ =>
      "hash<a> ref<> message<dup> date<2020-01-01>\nhash<b> ref<> message<keep> date<2020-01-02>"
  | _ => ""

theorem claim_C1_witness :
    (⟨"b", "", "keep", "2020-01-02"⟩ : CommitListItem).summary ∉
      nonblankLines (gitC1 (GitCmd.logBranch "rel")) :=
  claim_C1_no_excluded_summary gitC1 "x" "y" ["rel"] (by decide)
    ⟨"b", "", "keep", "2020-01-02"⟩ (by decide) "rel" (by decide)

/-- Claim C2: a line of the raw range output that fails to parse is absent
from the parsed result and raises no error (the parser is a total function
returning `none` there), while the well-formed lines around it are all
parsed, in their original order. -/
theorem claim_C2_malformed_dropped (git : GitCmd → String) (f t : String)
    (pre post : List String) (bad : String)
    (hbad : parseLogMessage bad = none)
    (hsplit : jsSplitNl (git (GitCmd.logRange f t)) = pre ++ bad :: post) :
    listCommits git f t [] =
      pre.filterMap parseLogMessage ++ post.filterMap parseLogMessage := by
  rw [listCommits_no_branches, parseRangeOutput_eq, hsplit]
  simp [List.filterMap_append, List.filterMap_cons, hbad]

/-- Oracle for the C2 witness: one well-formed line followed by one
malformed line. -/
def gitC2 : GitCmd → String := fun _ =>
  "hash<a> ref<> message<m> date<2020-01-01>\nbadline"

theorem claim_C2_witness :
    listCommits gitC2 "x" "y" [] =
      ["hash<a> ref<> message<m> date<2020-01-01>"].filterMap parseLogMessage ++
        ([] : List String).filterMap parseLogMessage :=
  claim_C2_malformed_dropped gitC2 "x" "y"
    ["hash<a> ref<> message<m> date<2020-01-01>"] [] "badline" (by decide) (by decide)

/-! ### Claim C3: `changedPaths` and blank lines -/

/-- Oracle producing empty output for every command: a commit that touched
no files. -/
def gitEmptyOut : GitCmd → String := fun _ => ""

/-- Claim C3 counterexample: for a commit that touched no files (raw
output empty), `changedPaths` returns `[""]` — a sequence containing an
empty-string entry — rather than the empty sequence the claim demands;
the source applies no blank-line filter. -/
theorem claim_C3_counterexample :
    changedPaths gitEmptyOut "abc" = [""] ∧ "" ∈ changedPaths gitEmptyOut "abc" := by
  decide

/-- Claim C3 amended: `changedPaths` returns one entry per output line with
blank lines included: if the raw output is the newline-join of a list of
lines, the result is exactly that list; in particular a commit that touched
no files yields `[""]`, never `[]`. -/
theorem claim_C3_amended_one_entry_per_line (git : GitCmd → String) (sha : String)
    (lines : List String) (hne : lines ≠ []) (hnl : ∀ l ∈ lines, '\n' ∉ l.data)
    (hout : git (GitCmd.gitShow sha) = joinLines lines) :
    changedPaths git sha = lines := by
  rw [changedPaths, hout]
  exact jsSplitNl_joinLines lines hnl hne

/-- Oracle for the C3 witness: output with a path, a blank line, and
another path. -/
def gitC3 : GitCmd → String := fun _ => "a.txt\n\nb.txt"

theorem claim_C3_witness : changedPaths gitC3 "abc" = ["a.txt", "", "b.txt"] :=
  claim_C3_amended_one_entry_per_line gitC3 "abc" ["a.txt", "", "b.txt"]
    (by decide) (by decide) (by decide)

/-! ### Claims C6, C7, C8 about the duplicate filter and empty ranges -/

/-- Claim C6: with an empty duplicate-check branch list no commit is
filtered: the length of the result of `listCommits` equals the number of
well-formed lines (lines on which the parser succeeds) in the raw range
output. -/
theorem claim_C6_no_filter_length (git : GitCmd → String) (f t : String) :
    (listCommits git f t []).length =
      (jsSplitNl (git (GitCmd.logRange f t))).countP
        (fun l => (parseLogMessage l).isSome) := by
  rw [listCommits_no_branches, parseRangeOutput_eq]
  exact length_filterMap_eq_countP _ _

/-- Claim C7: permuting the duplicate-check branch list does not change the
result of `listCommits`: which commits are filtered out, and the order of
the returned records, are unaffected. -/
theorem claim_C7_branch_order_irrelevant (git : GitCmd → String) (f t : String)
    (br1 br2 : List String) (hperm : br1.Perm br2) :
    listCommits git f t br1 = listCommits git f t br2 := by
  rw [listCommits_eq, listCommits_eq]
  apply List.filter_congr
  intro item _
  have hmem : item.summary ∈ excludedSummaries git br1 ↔
      item.summary ∈ excludedSummaries git br2 := by
    rw [mem_excludedSummaries, mem_excludedSummaries]
    constructor
    · rintro ⟨b, hb, hs⟩
      exact ⟨b, hperm.mem_iff.mp hb, hs⟩
    · rintro ⟨b, hb, hs⟩
      exact ⟨b, hperm.mem_iff.mpr hb, hs⟩
  have hc : (excludedSummaries git br1).contains item.summary =
      (excludedSummaries git br2).contains item.summary := by
    cases h1 : (excludedSummaries git br1).contains item.summary with
    | true =>
      exact ((contains_iff _ _).mpr (hmem.mp ((contains_iff _ _).mp h1))).symm
    | false =>
      cases h2 : (excludedSummaries git br2).contains item.summary with
      | true =>
        have := (contains_iff _ _).mpr (hmem.mpr ((contains_iff _ _).mp h2))
        rw [h1] at this
        exact this
      | false => rfl
  rw [hc]

/-- Oracle for the C7 witness: two branches with different exclusion
summaries. -/
def gitC7 : GitCmd → String := fun c =>
  match c with
  | GitCmd.logBranch "b1" => "s1"
  | GitCmd.logBranch _ => "s2"
  | GitCmd.logRange _ _ =>
      "hash<a> ref<> message<s1> date<2020-01-01>\nhash<b> ref<> message<ok> date<2020-01-02>"
  | _ => ""

theorem claim_C7_witness :
    listCommits gitC7 "x" "y" ["b1", "b2"] = listCommits gitC7 "x" "y" ["b2", "b1"] :=
  claim_C7_branch_order_irrelevant gitC7 "x" "y" ["b1", "b2"] ["b2", "b1"] (by decide)

/-- Claim C8: when the primary range output is empty (zero commits in the
range), `listCommits` returns the empty sequence; being a total function,
it raises no error. -/
theorem claim_C8_empty_range (git : GitCmd → String) (f t : String)
    (branches : List String) (h : git (GitCmd.logRange f t) = "") :
    listCommits git f t branches = [] := by
  rw [listCommits_eq, h]
  rfl

theorem claim_C8_witness : listCommits gitEmptyOut "v1.0.0" "v1.1.0" [] = [] :=
  claim_C8_empty_range gitEmptyOut "v1.0.0" "v1.1.0" [] rfl

/-! ### Claim C9 about `listTagNames` -/

/-- Claim C9: `listTagNames` returns no blank strings, preserves the order
of the underlying tag enumeration (its result is a sublist of the output
lines), and is a set-equivalent match of the non-blank output lines: every
non-blank line appears and nothing else does. -/
theorem claim_C9_tag_names (git : GitCmd → String) :
    (∀ tg ∈ listTagNames git, tg ≠ "") ∧
    (listTagNames git).Sublist (jsSplitNl (git GitCmd.tag)) ∧
    (∀ l ∈ jsSplitNl (git GitCmd.tag), l ≠ "" → l ∈ listTagNames git) := by
  refine ⟨?_, ?_, ?_⟩
  · intro tg htg
    have := (List.mem_filter.mp htg).2
    simpa using this
  · exact List.filter_sublist _
  · intro l hl hlne
    exact List.mem_filter.mpr ⟨hl, by simpa using hlne⟩

/-- Oracle for the C9 witness: two tags around a blank line. -/
def gitC9 : GitCmd → String := fun _ => "v1.0.0\n\nv1.1.0"

theorem claim_C9_witness : "v1.1.0" ∈ listTagNames gitC9 :=
  (claim_C9_tag_names gitC9).2.2 "v1.1.0" (by decide) (by decide)

/-! ### Claim C10 about the fetch side effect -/

/-- Claim C10: every `listCommits` invocation issues the remote fetch
exactly once, as the first external command, before every duplicate-check
branch query and before the range query; the fetch is never repeated
within the invocation. -/
theorem claim_C10_fetch_first_once (git : GitCmd → String) (f t : String)
    (branches : List String) :
    listCommitsTrace git f t branches =
      GitCmd.fetch :: (branches.map GitCmd.logBranch ++ [GitCmd.logRange f t]) ∧
    (listCommitsTrace git f t branches).count GitCmd.fetch = 1 := by
  refine ⟨listCommitsTrace_eq git f t branches, ?_⟩
  rw [listCommitsTrace_eq]
  have hnot : GitCmd.fetch ∉ branches.map GitCmd.logBranch ++ [GitCmd.logRange f t] := by
    intro h
    rcases List.mem_append.mp h with h1 | h2
    · rcases List.mem_map.mp h1 with ⟨b, _, hb⟩
      exact GitCmd.noConfusion hb
    · simp at h2
  rw [List.count_cons_self, List.count_eq_zero.mpr hnot]

/-! ### Backtracking matcher toolkit -/

theorem tryLens_first (k : Nat → Option α) (N n0 : Nat) (v : α) (h0 : n0 ≤ N)
    (hk : k n0 = some v) (hfail : ∀ m, n0 < m → m ≤ N → k m = none) :
    tryLens k N = some v := by
  induction N with
  | zero =>
    have hz : n0 = 0 := Nat.le_zero.mp h0
    subst hz
    simpa [tryLens] using hk
  | succ n ih =>
    by_cases h : n0 = n + 1
    · subst h
      simp [tryLens, hk]
    · have h1 : n0 ≤ n := by omega
      have h2 : k (n + 1) = none := hfail (n + 1) (by omega) (Nat.le_refl _)
      simp only [tryLens, h2]
      exact ih h1 (fun m hm1 hm2 => hfail m hm1 (by omega))

theorem tryLensPos_first (k : Nat → Option α) (N n0 : Nat) (v : α) (h0 : n0 ≤ N)
    (hpos : 1 ≤ n0) (hk : k n0 = some v)
    (hfail : ∀ m, n0 < m → m ≤ N → k m = none) :
    tryLensPos k N = some v := by
  induction N with
  | zero => omega
  | succ n ih =>
    by_cases h : n0 = n + 1
    · subst h
      simp [tryLensPos, hk]
    · have h1 : n0 ≤ n := by omega
      have h2 : k (n + 1) = none := hfail (n + 1) (by omega) (Nat.le_refl _)
      simp only [tryLensPos, h2]
      exact ih h1 (fun m hm1 hm2 => hfail m hm1 (by omega))

theorem tryLens_some (k : Nat → Option α) (N : Nat) (v : α) (h : tryLens k N = some v) :
    ∃ n, n ≤ N ∧ k n = some v := by
  induction N with
  | zero => exact ⟨0, Nat.le_refl _, by simpa [tryLens] using h⟩
  | succ n ih =>
    rcases hsome : k (n + 1) with _ | w
    · have h' : tryLens k n = some v := by
        simpa [tryLens, hsome] using h
      rcases ih h' with ⟨m, hm, hkm⟩
      exact ⟨m, Nat.le_succ_of_le hm, hkm⟩
    · have hw : w = v := by
        simpa [tryLens, hsome] using h
      exact ⟨n + 1, Nat.le_refl _, by rw [hsome, hw]⟩

theorem tryLensPos_some (k : Nat → Option α) (N : Nat) (v : α)
    (h : tryLensPos k N = some v) : ∃ n, 1 ≤ n ∧ n ≤ N ∧ k n = some v := by
  induction N with
  | zero => simp [tryLensPos] at h
  | succ n ih =>
    rcases hsome : k (n + 1) with _ | w
    · have h' : tryLensPos k n = some v := by
        simpa [tryLensPos, hsome] using h
      rcases ih h' with ⟨m, hm1, hm, hkm⟩
      exact ⟨m, hm1, Nat.le_succ_of_le hm, hkm⟩
    · have hw : w = v := by
        simpa [tryLensPos, hsome] using h
      exact ⟨n + 1, by omega, Nat.le_refl _, by rw [hsome, hw]⟩

theorem litThen_append (lit : List Char) (k : List Char → Option α) (rest : List Char) :
    litThen lit k (lit ++ rest) = k rest := by
  have h : lit.isPrefixOf (lit ++ rest) = true :=
    List.isPrefixOf_iff_prefix.mpr (List.prefix_append lit rest)
  simp [litThen, h, List.drop_left]

theorem litThen_none (lit : List Char) (k : List Char → Option α) (s : List Char)
    (h : ¬ lit <+: s) : litThen lit k s = none := by
  simp [litThen, List.isPrefixOf_iff_prefix, h]

theorem litThen_some (lit : List Char) (k : List Char → Option α) (s : List Char) (v : α)
    (h : litThen lit k s = some v) :
    s = lit ++ s.drop lit.length ∧ k (s.drop lit.length) = some v := by
  by_cases hp : lit.isPrefixOf s
  · have hpre : lit <+: s := List.isPrefixOf_iff_prefix.mp hp
    constructor
    · rcases hpre with ⟨rest, rfl⟩
      rw [List.drop_left]
    · simpa [litThen, hp] using h
  · simp [litThen, hp] at h

theorem not_prefix_of_length (p s : List Char) (h : s.length < p.length) : ¬ p <+: s :=
  fun hp => absurd hp.length_le (by omega)

theorem takeWhile_length_ge (p : Char → Bool) (v w : List Char)
    (hv : ∀ c ∈ v, p c = true) : v.length ≤ ((v ++ w).takeWhile p).length := by
  induction v with
  | nil => simp
  | cons c v ih =>
    have hc : p c = true := hv c (by simp)
    have ih' := ih (fun x hx => hv x (by simp [hx]))
    simp only [List.cons_append, List.takeWhile_cons, hc, if_pos, List.length_cons]
    omega

theorem dotStar_boundary (mk : List Char) (k2 : List Char → List Char → Option α)
    (v rest : List Char) (r : α)
    (hv : ∀ c ∈ v, isLineTerm c = false)
    (hOcc : ∀ n, 0 < n → ¬ mk <+: (mk ++ rest).drop n)
    (hk : k2 v rest = some r) :
    dotStar (fun g s => litThen mk (k2 g) s) (v ++ (mk ++ rest)) = some r := by
  rw [dotStar]
  apply tryLens_first _ _ v.length
  · rw [dotMax]
    exact takeWhile_length_ge _ v _ (fun c hc => by simp [hv c hc])
  · show litThen mk (k2 ((v ++ (mk ++ rest)).take v.length))
      ((v ++ (mk ++ rest)).drop v.length) = some r
    rw [List.take_left, List.drop_left, litThen_append]
    exact hk
  · intro m hm hmN
    show litThen mk (k2 ((v ++ (mk ++ rest)).take m)) ((v ++ (mk ++ rest)).drop m) = none
    have hdrop : (v ++ (mk ++ rest)).drop m = (mk ++ rest).drop (m - v.length) := by
      have : m = v.length + (m - v.length) := by omega
      rw [this, List.drop_append]
      congr 1
      omega
    rw [hdrop]
    exact litThen_none _ _ _ (hOcc (m - v.length) (by omega))

theorem dotPlus_boundary (mk : List Char) (k2 : List Char → List Char → Option α)
    (v rest : List Char) (r : α)
    (hvne : v ≠ [])
    (hv : ∀ c ∈ v, isLineTerm c = false)
    (hOcc : ∀ n, 0 < n → ¬ mk <+: (mk ++ rest).drop n)
    (hk : k2 v rest = some r) :
    dotPlus (fun g s => litThen mk (k2 g) s) (v ++ (mk ++ rest)) = some r := by
  rw [dotPlus]
  apply tryLensPos_first _ _ v.length
  · rw [dotMax]
    exact takeWhile_length_ge _ v _ (fun c hc => by simp [hv c hc])
  · have : 0 < v.length := List.length_pos.mpr hvne
    omega
  · show litThen mk (k2 ((v ++ (mk ++ rest)).take v.length))
      ((v ++ (mk ++ rest)).drop v.length) = some r
    rw [List.take_left, List.drop_left, litThen_append]
    exact hk
  · intro m hm hmN
    show litThen mk (k2 ((v ++ (mk ++ rest)).take m)) ((v ++ (mk ++ rest)).drop m) = none
    have hdrop : (v ++ (mk ++ rest)).drop m = (mk ++ rest).drop (m - v.length) := by
      have : m = v.length + (m - v.length) := by omega
      rw [this, List.drop_append]
      congr 1
      omega
    rw [hdrop]
    exact litThen_none _ _ _ (hOcc (m - v.length) (by omega))

theorem jsMatch_of_matchCore (s : List Char) (v : List Char × List Char × List Char × List Char)
    (h : matchCore s = some v) : jsMatch s = some v := by
  cases s with
  | nil => simpa [jsMatch] using h
  | cons c cs => simp [jsMatch, h]

/-! ### Non-occurrence of the field markers inside a constructed line -/

/-- The pattern `p` occurs nowhere in `s`, not even at position `0`. -/
def NotOccAt (p s : List Char) : Prop := ∀ n, ¬ p <+: s.drop n

theorem notOccAt_nil (p : List Char) (hp : p ≠ []) : NotOccAt p [] := by
  intro n h
  rw [List.drop_nil] at h
  exact hp (List.prefix_nil.mp h)

theorem notOccAt_cons (p : List Char) (c : Char) (s : List Char)
    (h0 : ¬ p <+: (c :: s)) (hs : NotOccAt p s) : NotOccAt p (c :: s) := by
  intro n
  cases n with
  | zero => simpa using h0
  | succ n =>
    rw [List.drop_succ_cons]
    exact hs n

theorem head_mismatch (p' s : List Char) (c : Char) (hc : c ≠ '>') :
    ¬ ('>' :: p') <+: (c :: s) := by
  intro h
  rcases h with ⟨t, ht⟩
  rw [List.cons_append] at ht
  injection ht with h1 _
  exact hc h1.symm

theorem notOccAt_append_free (p' : List Char) (v s : List Char)
    (hv : ∀ c ∈ v, c ≠ '>') (hs : NotOccAt ('>' :: p') s) :
    NotOccAt ('>' :: p') (v ++ s) := by
  induction v with
  | nil => simpa using hs
  | cons c v ih =>
    have ih' := ih (fun x hx => hv x (by simp [hx]))
    rw [List.cons_append]
    exact notOccAt_cons _ _ _ (head_mismatch _ _ _ (hv c (by simp))) ih'

theorem notOccAt_append_marker (p' m' : List Char) (s : List Char)
    (hm' : ∀ c ∈ m', c ≠ '>')
    (h0 : ¬ ('>' :: p') <+: (('>' :: m') ++ s))
    (hs : NotOccAt ('>' :: p') s) :
    NotOccAt ('>' :: p') (('>' :: m') ++ s) := by
  rw [List.cons_append]
  refine notOccAt_cons _ _ _ ?_ (notOccAt_append_free _ m' s hm' hs)
  simpa using h0

theorem not_prefix_of_get_mismatch (p x s : List Char) (i : Nat)
    (hi : i < x.length) (hip : i < p.length) (hne : p[i]? ≠ x[i]?) :
    ¬ p <+: (x ++ s) := by
  intro h
  rcases h with ⟨t, ht⟩
  have h1 : (x ++ s)[i]? = p[i]? := by
    rw [← ht, List.getElem?_append_left hip]
  have h2 : (x ++ s)[i]? = x[i]? := List.getElem?_append_left hi
  exact hne (h1.symm.trans h2)

/-- Shift: convert non-occurrence in the tail into failure at every
positive offset. -/
theorem hOcc_of_notOccAt (p : List Char) (c : Char) (y : List Char)
    (h : NotOccAt p y) : ∀ n, 0 < n → ¬ p <+: (c :: y).drop n := by
  intro n hn
  cases n with
  | zero => omega
  | succ n =>
    rw [List.drop_succ_cons]
    exact h n

theorem notOccAt_ref_tail (refv msgv datev : List Char)
    (href : ∀ c ∈ refv, c ≠ '>') (hmsg : ∀ c ∈ msgv, c ≠ '>')
    (hdate : ∀ c ∈ datev, c ≠ '>') :
    NotOccAt "> ref<".data
      (" ref<".data ++ (refv ++ ("> message<".data ++ (msgv ++
        ("> date<".data ++ (datev ++ ">".data)))))) := by
  have x0 : NotOccAt "> ref<".data ([] : List Char) :=
    notOccAt_nil _ (by decide)
  have x1 : NotOccAt "> ref<".data (">".data) :=
    notOccAt_append_marker " ref<".data [] [] (by simp)
      (by
        intro h
        exact not_prefix_of_length ('>' :: " ref<".data) ['>'] (by decide) (by simpa using h))
      x0
  have x2 : NotOccAt "> ref<".data (datev ++ ">".data) :=
    notOccAt_append_free _ datev _ hdate x1
  have x3 : NotOccAt "> ref<".data ("> date<".data ++ (datev ++ ">".data)) :=
    notOccAt_append_marker " ref<".data " date<".data _ (by decide)
      (not_prefix_of_get_mismatch _ "> date<".data _ 2 (by decide) (by decide) (by decide))
      x2
  have x4 : NotOccAt "> ref<".data (msgv ++ ("> date<".data ++ (datev ++ ">".data))) :=
    notOccAt_append_free _ msgv _ hmsg x3
  have x5 : NotOccAt "> ref<".data
      ("> message<".data ++ (msgv ++ ("> date<".data ++ (datev ++ ">".data)))) :=
    notOccAt_append_marker " ref<".data " message<".data _ (by decide)
      (not_prefix_of_get_mismatch _ "> message<".data _ 2 (by decide) (by decide) (by decide))
      x4
  have x6 : NotOccAt "> ref<".data
      (refv ++ ("> message<".data ++ (msgv ++ ("> date<".data ++ (datev ++ ">".data))))) :=
    notOccAt_append_free _ refv _ href x5
  exact notOccAt_append_free _ " ref<".data _ (by decide) x6

theorem notOccAt_msg_tail (msgv datev : List Char)
    (hmsg : ∀ c ∈ msgv, c ≠ '>') (hdate : ∀ c ∈ datev, c ≠ '>') :
    NotOccAt "> message<".data
      (" message<".data ++ (msgv ++ ("> date<".data ++ (datev ++ ">".data)))) := by
  have x1 : NotOccAt "> message<".data (">".data) :=
    notOccAt_append_marker " message<".data [] [] (by simp)
      (by
        intro h
        exact not_prefix_of_length ('>' :: " message<".data) ['>'] (by decide) (by simpa using h))
      (notOccAt_nil _ (by decide))
  have x2 : NotOccAt "> message<".data (datev ++ ">".data) :=
    notOccAt_append_free _ datev _ hdate x1
  have x3 : NotOccAt "> message<".data ("> date<".data ++ (datev ++ ">".data)) :=
    notOccAt_append_marker " message<".data " date<".data _ (by decide)
      (not_prefix_of_get_mismatch _ "> date<".data _ 2 (by decide) (by decide) (by decide))
      x2
  have x4 : NotOccAt "> message<".data (msgv ++ ("> date<".data ++ (datev ++ ">".data))) :=
    notOccAt_append_free _ msgv _ hmsg x3
  exact notOccAt_append_free _ " message<".data _ (by decide) x4

theorem notOccAt_date_tail (datev : List Char) (hdate : ∀ c ∈ datev, c ≠ '>') :
    NotOccAt "> date<".data (" date<".data ++ (datev ++ ">".data)) := by
  have x1 : NotOccAt "> date<".data (">".data) :=
    notOccAt_append_marker " date<".data [] [] (by simp)
      (by
        intro h
        exact not_prefix_of_length ('>' :: " date<".data) ['>'] (by decide) (by simpa using h))
      (notOccAt_nil _ (by decide))
  have x2 : NotOccAt "> date<".data (datev ++ ">".data) :=
    notOccAt_append_free _ datev _ hdate x1
  exact notOccAt_append_free _ " date<".data _ (by decide) x2

theorem hOcc_final : ∀ n, 0 < n →
    ¬ ">".data <+: ((">".data ++ ([] : List Char)).drop n) := by
  intro n hn h
  cases n with
  | zero => omega
  | succ n =>
    simp only [List.append_nil] at h
    have hd : (['>'] : List Char).drop (n + 1) = ([] : List Char).drop n :=
      List.drop_succ_cons
    rw [hd, List.drop_nil] at h
    exact absurd (List.prefix_nil.mp h) (by decide)

/-- Field values free of the record's own field delimiters (`<` and `>`)
and of line-terminator characters (a log line contains none). -/
def noDelims (s : String) : Prop :=
  ∀ c ∈ s.data, c ≠ '<' ∧ c ≠ '>' ∧ isLineTerm c = false

instance noDelims_decidable (s : String) : Decidable (noDelims s) :=
  inferInstanceAs (Decidable (∀ c ∈ s.data, c ≠ '<' ∧ c ≠ '>' ∧ isLineTerm c = false))

theorem matchCore_formatLine (sha refv summ datev : String) (hsha : sha ≠ "")
    (h1 : noDelims sha) (h2 : noDelims refv) (h3 : noDelims summ) (h4 : noDelims datev) :
    matchCore (formatLine sha refv summ datev).data =
      some (sha.data, refv.data, summ.data, datev.data) := by
  have hdata : (formatLine sha refv summ datev).data =
      "hash<".data ++ (sha.data ++ ("> ref<".data ++ (refv.data ++
        ("> message<".data ++ (summ.data ++ ("> date<".data ++
          (datev.data ++ ">".data))))))) := by
    simp [formatLine, String.data_append, List.append_assoc]
  rw [hdata]
  simp only [matchCore, litThen_append]
  apply dotPlus_boundary "> ref<".data
    (fun g1 s3 => dotStar (fun g2 s4 =>
      litThen "> message<".data (fun s5 => dotStar (fun g3 s6 =>
        litThen "> date<".data (fun s7 => dotStar (fun g4 s8 =>
          litThen ">".data (fun _ => some (g1, g2, g3, g4)) s8) s7) s6) s5) s4) s3)
    sha.data _ _
  · intro hd
    exact hsha (String.ext (hd.trans rfl))
  · exact fun c hc => (h1 c hc).2.2
  · exact hOcc_of_notOccAt _ '>' _
      (notOccAt_ref_tail refv.data summ.data datev.data
        (fun c hc => (h2 c hc).2.1) (fun c hc => (h3 c hc).2.1)
        (fun c hc => (h4 c hc).2.1))
  · apply dotStar_boundary "> message<".data
      (fun g2 s5 => dotStar (fun g3 s6 =>
        litThen "> date<".data (fun s7 => dotStar (fun g4 s8 =>
          litThen ">".data (fun _ => some (sha.data, g2, g3, g4)) s8) s7) s6) s5)
      refv.data _ _
    · exact fun c hc => (h2 c hc).2.2
    · exact hOcc_of_notOccAt _ '>' _
        (notOccAt_msg_tail summ.data datev.data
          (fun c hc => (h3 c hc).2.1) (fun c hc => (h4 c hc).2.1))
    · apply dotStar_boundary "> date<".data
        (fun g3 s7 => dotStar (fun g4 s8 =>
          litThen ">".data (fun _ => some (sha.data, refv.data, g3, g4)) s8) s7)
        summ.data _ _
      · exact fun c hc => (h3 c hc).2.2
      · exact hOcc_of_notOccAt _ '>' _
          (notOccAt_date_tail datev.data (fun c hc => (h4 c hc).2.1))
      · apply dotStar_boundary ">".data
          (fun g4 _ => some (sha.data, refv.data, summ.data, g4))
          datev.data []
        · exact fun c hc => (h4 c hc).2.2
        · exact hOcc_final
        · rfl

/-- Claim C4: parsing a well-formed structured log line whose four field
values contain none of the record's own field delimiters (and no line
terminators, a line holding none by construction) recovers the four field
values exactly, so re-serializing with the same markers reproduces the
original line: a full round trip. -/
theorem claim_C4_roundtrip (sha refv summ datev : String) (hsha : sha ≠ "")
    (h1 : noDelims sha) (h2 : noDelims refv) (h3 : noDelims summ) (h4 : noDelims datev) :
    parseLogMessage (formatLine sha refv summ datev) =
      some ⟨sha, refv, summ, datev⟩ := by
  have hjm := jsMatch_of_matchCore _ _
    (matchCore_formatLine sha refv summ datev hsha h1 h2 h3 h4)
  rw [parseLogMessage, hjm]

/-- Claim C4 witness: the specification's own example line. -/
theorem claim_C4_witness :
    parseLogMessage (formatLine "abc123" "tag: v1.2.0" "Fix bug" "2024-01-15") =
      some ⟨"abc123", "tag: v1.2.0", "Fix bug", "2024-01-15"⟩ :=
  claim_C4_roundtrip "abc123" "tag: v1.2.0" "Fix bug" "2024-01-15"
    (by decide) (by decide) (by decide) (by decide) (by decide)

/-! ### Claim C5: lines merely containing the pattern still yield records -/

/-- Spec-side checker for "the entire line conforms to the structured
format": the pattern must match starting at position `0` and the
captured fields must re-serialize to the whole line (nothing before or
after the match). -/
def conformsFull (line : String) : Bool :=
  match matchCore line.data with
  | some (g1, g2, g3, g4) =>
      line == formatLine (String.mk g1) (String.mk g2) (String.mk g3) (String.mk g4)
  | none => false

/-- Raw range line that merely contains the pattern amid other text. -/
def junkLine : String := "junk hash<a> ref<> message<m> date<d> tail"

/-- Oracle for the C5 counterexample. -/
def gitC5 : GitCmd → String := fun _ => junkLine

/-- Claim C5 counterexample: `listCommits` emits a record from a line that
does not conform to the full structured format — the unanchored match
accepts a line that merely contains the pattern amid other text. -/
theorem claim_C5_counterexample :
    listCommits gitC5 "x" "y" [] = [⟨"a", "", "m", "d"⟩] ∧
      conformsFull junkLine = false := by
  decide

theorem jsMatch_sound (s : List Char) (v : List Char × List Char × List Char × List Char)
    (h : jsMatch s = some v) :
    ∃ pre suf, s = pre ++ suf ∧ matchCore suf = some v := by
  induction s with
  | nil => exact ⟨[], [], rfl, by simpa [jsMatch] using h⟩
  | cons c cs ih =>
    rcases hmc : matchCore (c :: cs) with _ | w
    · have h' : jsMatch cs = some v := by
        simpa [jsMatch, hmc] using h
      rcases ih h' with ⟨pre, suf, hsplit, hcore⟩
      exact ⟨c :: pre, suf, by rw [List.cons_append, ← hsplit], hcore⟩
    · have hw : w = v := by
        simpa [jsMatch, hmc] using h
      exact ⟨[], c :: cs, rfl, by rw [hmc, hw]⟩

theorem matchCore_sound (s g1 g2 g3 g4 : List Char)
    (h : matchCore s = some (g1, g2, g3, g4)) :
    ∃ post, s = "hash<".data ++ (g1 ++ ("> ref<".data ++ (g2 ++
      ("> message<".data ++ (g3 ++ ("> date<".data ++ (g4 ++
        (">".data ++ post)))))))) := by
  simp only [matchCore] at h
  obtain ⟨hs0, h⟩ := litThen_some _ _ _ _ h
  simp only [dotPlus] at h
  obtain ⟨n1, hn1, hn1le, h⟩ := tryLensPos_some _ _ _ h
  obtain ⟨hs1, h⟩ := litThen_some _ _ _ _ h
  simp only [dotStar] at h
  obtain ⟨n2, hn2le, h⟩ := tryLens_some _ _ _ h
  obtain ⟨hs2, h⟩ := litThen_some _ _ _ _ h
  obtain ⟨n3, hn3le, h⟩ := tryLens_some _ _ _ h
  obtain ⟨hs3, h⟩ := litThen_some _ _ _ _ h
  obtain ⟨n4, hn4le, h⟩ := tryLens_some _ _ _ h
  obtain ⟨hs4, h⟩ := litThen_some _ _ _ _ h
  simp only [Option.some.injEq, Prod.mk.injEq] at h
  obtain ⟨hg1, hg2, hg3, hg4⟩ := h
  set t0 := List.drop (['h', 'a', 's', 'h', '<'] : List Char).length s with et0
  set t1 := List.drop n1 t0 with et1
  set t2 := List.drop (['>', ' ', 'r', 'e', 'f', '<'] : List Char).length t1 with et2
  set t3 := List.drop n2 t2 with et3
  set t4 := List.drop (['>', ' ', 'm', 'e', 's', 's', 'a', 'g', 'e', '<'] : List Char).length t3 with et4
  set t5 := List.drop n3 t4 with et5
  set t6 := List.drop (['>', ' ', 'd', 'a', 't', 'e', '<'] : List Char).length t5 with et6
  set t7 := List.drop n4 t6 with et7
  set t8 := List.drop (['>'] : List Char).length t7 with et8
  have e6 : t6 = g4 ++ (['>'] ++ t8) := by
    rw [← hg4, ← hs4]
    exact (List.take_append_drop n4 t6).symm
  have e5 : t5 = ['>', ' ', 'd', 'a', 't', 'e', '<'] ++ (g4 ++ (['>'] ++ t8)) := by
    rw [← e6]
    exact hs3
  have e4 : t4 = g3 ++ (['>', ' ', 'd', 'a', 't', 'e', '<'] ++ (g4 ++ (['>'] ++ t8))) := by
    rw [← hg3, ← e5]
    exact (List.take_append_drop n3 t4).symm
  have e3 : t3 = ['>', ' ', 'm', 'e', 's', 's', 'a', 'g', 'e', '<'] ++
      (g3 ++ (['>', ' ', 'd', 'a', 't', 'e', '<'] ++ (g4 ++ (['>'] ++ t8)))) := by
    rw [← e4]
    exact hs2
  have e2 : t2 = g2 ++ (['>', ' ', 'm', 'e', 's', 's', 'a', 'g', 'e', '<'] ++
      (g3 ++ (['>', ' ', 'd', 'a', 't', 'e', '<'] ++ (g4 ++ (['>'] ++ t8))))) := by
    rw [← hg2, ← e3]
    exact (List.take_append_drop n2 t2).symm
  have e1 : t1 = ['>', ' ', 'r', 'e', 'f', '<'] ++
      (g2 ++ (['>', ' ', 'm', 'e', 's', 's', 'a', 'g', 'e', '<'] ++
        (g3 ++ (['>', ' ', 'd', 'a', 't', 'e', '<'] ++ (g4 ++ (['>'] ++ t8)))))) := by
    rw [← e2]
    exact hs1
  have e0 : t0 = g1 ++ (['>', ' ', 'r', 'e', 'f', '<'] ++
      (g2 ++ (['>', ' ', 'm', 'e', 's', 's', 'a', 'g', 'e', '<'] ++
        (g3 ++ (['>', ' ', 'd', 'a', 't', 'e', '<'] ++ (g4 ++ (['>'] ++ t8))))))) := by
    rw [← hg1, ← e1]
    exact (List.take_append_drop n1 t0).symm
  refine ⟨t8, ?_⟩
  show s = ['h', 'a', 's', 'h', '<'] ++ (g1 ++ (['>', ' ', 'r', 'e', 'f', '<'] ++
    (g2 ++ (['>', ' ', 'm', 'e', 's', 's', 'a', 'g', 'e', '<'] ++
      (g3 ++ (['>', ' ', 'd', 'a', 't', 'e', '<'] ++ (g4 ++ (['>'] ++ t8))))))))
  rw [← e0]
  exact hs0

/-- Claim C5 amended: a record is materialized from any line containing
the structured pattern as a substring — possibly amid other text — with
the record's four fields being exactly the captured groups; the parser
returns `none` otherwise, so the result never holds null or placeholder
records. -/
theorem claim_C5_amended_contains_pattern (line : String) (item : CommitListItem)
    (h : parseLogMessage line = some item) :
    ∃ pre post : List Char,
      line.data = pre ++ ("hash<".data ++ (item.sha.data ++ ("> ref<".data ++
        (item.refName.data ++ ("> message<".data ++ (item.summary.data ++
          ("> date<".data ++ (item.date.data ++ (">".data ++ post))))))))) := by
  rcases hm : jsMatch line.data with _ | ⟨g1, g2, g3, g4⟩
  · rw [parseLogMessage, hm] at h
    exact absurd h (by simp)
  · rw [parseLogMessage, hm] at h
    obtain rfl : item = ⟨String.mk g1, String.mk g2, String.mk g3, String.mk g4⟩ := by
      injection h with h
      exact h.symm
    obtain ⟨pre, suf, hsplit, hcore⟩ := jsMatch_sound _ _ hm
    obtain ⟨post, hdecomp⟩ := matchCore_sound _ _ _ _ _ hcore
    exact ⟨pre, post, by rw [hsplit, hdecomp]⟩

theorem claim_C5_witness :
    ∃ pre post : List Char,
      junkLine.data = pre ++ ("hash<".data ++ ("a".data ++ ("> ref<".data ++
        ("".data ++ ("> message<".data ++ ("m".data ++
          ("> date<".data ++ ("d".data ++ (">".data ++ post))))))))) :=
  claim_C5_amended_contains_pattern junkLine ⟨"a", "", "m", "d"⟩ (by decide)
